import Mathlib

/-!
Verification of the MOOSE `Parser` subsystem (framework/include/parser/Parser.h).

The header declares the path utilities (`tokenize`, `pathContains`), section
activation (`isSectionActive`), parameter extraction (`extractParams` with the
`setScalarParameter` / `setVectorParameter` helpers) and the deferred execution
scheduler (`execute`, `deferExecution`, `markExecuted`).  The inline member
functions (`deferExecution`, `markExecuted`, `isExecuted`) are embedded
directly from their bodies; the out-of-line members have no body in the
header, so they are modelled from the specification, as noted on each
definition.
-/

namespace MooseParser

/-! ## PathMatcher: tokenize and pathContains -/

/-- Modelled from the spec: the body of `Parser::tokenize` lives in the missing
`Parser.C`; the spec says it splits `str` on every occurrence of a delimiter
character, discarding empty segments, and never fails.  `cur` is the current
segment accumulated in reverse. -/
def tokenizeAux (delims : List Char) (cur : List Char) : List Char → List (List Char)
  | [] => if cur.isEmpty then [] else [cur.reverse]
  | c :: cs =>
    if delims.contains c then
      if cur.isEmpty then tokenizeAux delims [] cs
      else cur.reverse :: tokenizeAux delims [] cs
    else tokenizeAux delims (c :: cur) cs

/-- Modelled from the spec: `Parser::tokenize(str, elements, delims)` appends
the non-empty segments of `str`, split on the delimiter characters of
`delims`, to `elements`; we return the segment list itself.  The C++ default
for `delims` is `"/"`. -/
def tokenize (str : String) (delims : String) : List String :=
  (tokenizeAux delims.toList [] str.toList).map (fun cs => String.mk cs)

/-- Modelled from the spec: `Parser::pathContains` tokenizes `expression` and
checks whether `string_to_find` occurs among the segments. -/
def pathContains (expression string_to_find : String) (delims : String) : Bool :=
  (tokenize expression delims).contains string_to_find

/-! ## Section activation -/

/-- The hierarchical path of the section enclosing `s` (all segments but the
last, rejoined with the `"/"` delimiter). -/
def parentPath (s : String) : String :=
  String.intercalate "/" (tokenize s "/").dropLast

/-- The final segment of a section path: the section's own name. -/
def baseName (s : String) : String :=
  (tokenize s "/").getLastD ""

/-- Modelled from the spec: `Parser::isSectionActive(section_name,
active_lists)` has no body in the header.  The spec's default-active policy:
if the enclosing parent path has no entry in the mapping the section is
active; if it has an entry, the entry is an active list and the section is
active iff its own name appears in that list. -/
def isSectionActive (section_name : String)
    (active_lists : List (String × List String)) : Bool :=
  match active_lists.lookup (parentPath section_name) with
  | none => true
  | some lst => lst.contains (baseName section_name)

/-! ## Parameter extraction -/

/-- Errors surfaced by parameter extraction (spec section 7 taxonomy). -/
inductive ExtractError where
  | MissingRequiredParameter (block_path : String) (param : String)
  | TypeConversionError (param : String) (expected : String) (token : String)
  deriving DecidableEq

/-- The raw (unconverted) parameters of a block: parameter name to raw value
text, as held by a `ParserBlock` / the `GlobalParamsAction` block. -/
abbrev RawParams := List (String × String)

/-- Modelled from the spec: the lookup order of `Parser::extractParams` — raw
tokens for a name are looked up on the target block first and on the
designated global-parameters block only if absent there. -/
def lookupRaw (blk glob : RawParams) (n : String) : Option String :=
  match blk.lookup n with
  | some v => some v
  | none => glob.lookup n

/-- Modelled from the spec: `Parser::setScalarParameter<T>` (declared at
Parser.h:170-171, body in the missing `Parser.C`).  `parseT` is the
type-specific token parser for `T`, `current` the parameter's existing value
(`none` = unset).  Absent + required fails with `MissingRequiredParameter`;
absent + optional leaves `current` untouched; a malformed token fails with
`TypeConversionError`; otherwise the parsed value is assigned. -/
def setScalarParameter {T : Type} (parseT : String → Option T)
    (type_name block_path name : String) (required : Bool)
    (blk glob : RawParams) (current : Option T) :
    Except ExtractError (Option T) :=
  match lookupRaw blk glob name with
  | none =>
    if required then Except.error (ExtractError.MissingRequiredParameter block_path name)
    else Except.ok current
  | some raw =>
    match parseT raw with
    | none => Except.error (ExtractError.TypeConversionError name type_name raw)
    | some v => Except.ok (some v)

/-- Modelled from the spec: element-wise conversion of a token sequence; the
first malformed token fails the whole parameter with `TypeConversionError`
naming the parameter, the expected type and the offending token. -/
def convertTokens {T : Type} (parseT : String → Option T)
    (name type_name : String) : List String → Except ExtractError (List T)
  | [] => Except.ok []
  | t :: ts =>
    match parseT t with
    | none => Except.error (ExtractError.TypeConversionError name type_name t)
    | some v =>
      match convertTokens parseT name type_name ts with
      | Except.error e => Except.error e
      | Except.ok vs => Except.ok (v :: vs)

/-- Whitespace characters separating the tokens of one raw vector value. -/
def whitespaceDelims : String := " \x09\x0a"

/-- Modelled from the spec: `Parser::setVectorParameter<T>` (declared at
Parser.h:173-174).  Same lookup/absence handling as the scalar case; a
present raw value is split on whitespace and every token converted. -/
def setVectorParameter {T : Type} (parseT : String → Option T)
    (type_name block_path name : String) (required : Bool)
    (blk glob : RawParams) (current : Option (List T)) :
    Except ExtractError (Option (List T)) :=
  match lookupRaw blk glob name with
  | none =>
    if required then Except.error (ExtractError.MissingRequiredParameter block_path name)
    else Except.ok current
  | some raw =>
    match convertTokens parseT name type_name (tokenize raw whitespaceDelims) with
    | Except.error e => Except.error e
    | Except.ok vs => Except.ok (some vs)

/-- True when every character of the list is a decimal digit. -/
def allDigits (cs : List Char) : Bool := cs.all (fun c => c.isDigit)

/-- The natural number denoted by a list of decimal digit characters. -/
def natOfDigits (cs : List Char) : Nat :=
  cs.foldl (fun a c => a * 10 + (c.toNat - 48)) 0

/-- Split a character list at the first occurrence of `sep`: the part before
it, and — when `sep` occurs — the part after it. -/
def splitFirst (sep : Char) : List Char → List Char × Option (List Char)
  | [] => ([], none)
  | c :: cs =>
    if c = sep then ([], some cs)
    else (c :: (splitFirst sep cs).1, (splitFirst sep cs).2)

/-- Modelled from the spec: the numeric token parser used for `Real`-valued
parameters — an optional minus sign, then decimal digits with an optional
fractional part; any other text is a conversion failure.  The value is exact,
as a rational. -/
def parseDecimalChars (cs : List Char) : Option Rat :=
  let sign : Int := match cs with
    | '-' :: _ => -1
    | _ => 1
  let body : List Char := match cs with
    | '-' :: rest => rest
    | rest => rest
  let ip : List Char := (splitFirst '.' body).1
  match (splitFirst '.' body).2 with
  | none =>
    if ip ≠ [] ∧ allDigits ip then
      some (Rat.ofInt (sign * Int.ofNat (natOfDigits ip)))
    else none
  | some fp =>
    if ip ≠ [] ∧ fp ≠ [] ∧ allDigits ip ∧ allDigits fp then
      some (mkRat (sign * Int.ofNat (natOfDigits ip * 10 ^ fp.length + natOfDigits fp))
        (10 ^ fp.length))
    else none

/-- The numeric token parser on strings. -/
def parseDecimal (s : String) : Option Rat :=
  parseDecimalChars s.toList

/-! ## Execution scheduler -/

/-- One configuration block as the scheduler sees it: its hierarchical path
and the paths of the objects it requires (prerequisites reported by the
construction collaborator). -/
structure ParserBlock where
  path : String
  prereqs : List String
  deriving DecidableEq

/-- From Parser.h:78-81: `markExecuted` inserts the block name into the
`_executed_blocks` `std::set`; modelled as an insertion-ordered duplicate-free
list. -/
def markExecuted (executed : List String) (pb_name : String) : List String :=
  if executed.contains pb_name then executed else executed ++ [pb_name]

/-- From Parser.h:83-86: `isExecuted` tests membership in `_executed_blocks`. -/
def isExecuted (executed : List String) (pb_name : String) : Bool :=
  executed.contains pb_name

/-- Modelled from the spec: the construction collaborator succeeds exactly
when every prerequisite object has already been constructed; otherwise it
signals an unmet prerequisite. -/
def prereqsMet (executed : List String) (b : ParserBlock) : Bool :=
  b.prereqs.all (fun p => isExecuted executed p)

/-- Modelled from the spec: one pass over a sequence of blocks (the initial
pre-order pass, or one retry sweep of the deferred list).  A block whose
prerequisites are met is marked executed at once — later blocks of the same
pass see it — and a block with an unmet prerequisite is kept deferred, in
order. -/
def sweep (executed : List String) : List ParserBlock → List String × List ParserBlock
  | [] => (executed, [])
  | b :: rest =>
    if prereqsMet executed b then
      sweep (markExecuted executed b.path) rest
    else
      ((sweep executed rest).1, b :: (sweep executed rest).2)

/-- Iterate `n` retry sweeps over the deferred sequence. -/
def iterSweeps : Nat → List String → List ParserBlock → List String × List ParserBlock
  | 0, ex, df => (ex, df)
  | n + 1, ex, df => iterSweeps n (sweep ex df).1 (sweep ex df).2

/-- The fatal scheduler error (spec section 7). -/
inductive ParseError where
  | UnresolvedDependency (paths : List String)
  deriving DecidableEq

/-- The scheduler state reached by `Parser::execute`: the initial pre-order
pass followed by retry sweeps to the fixed point.  A sweep that removes zero
entries is the identity on the state, and every other sweep shrinks the
deferred list, so `(initial deferred).length` sweeps always reach the fixed
point the retry loop stops at. -/
def executeFix (blocks : List ParserBlock) : List String × List ParserBlock :=
  iterSweeps (sweep [] blocks).2.length (sweep [] blocks).1 (sweep [] blocks).2

/-- Modelled from the spec: `Parser::execute` (declared at Parser.h:55, body
in the missing `Parser.C`).  It retries the deferred list to a fixed point
and fails with `UnresolvedDependency`, reporting every remaining block path,
when the fixed point leaves the deferred list non-empty. -/
def execute (blocks : List ParserBlock) : Except ParseError (List String) :=
  if (executeFix blocks).2.isEmpty then Except.ok (executeFix blocks).1
  else Except.error (ParseError.UnresolvedDependency ((executeFix blocks).2.map ParserBlock.path))

/-- The per-block execution state of the spec's data model. -/
inductive ExecState where
  | NotAttempted
  | Deferred
  | Executed
  deriving DecidableEq

/-- Numeric progress of an execution state, for the monotonicity invariant. -/
def stateIdx : ExecState → Nat
  | ExecState.NotAttempted => 0
  | ExecState.Deferred => 1
  | ExecState.Executed => 2

/-- A block's execution state as determined by the scheduler's executed set
and deferred sequence. -/
def blockState (ex : List String) (df : List ParserBlock) (b : ParserBlock) : ExecState :=
  if b.path ∈ ex then ExecState.Executed
  else if b ∈ df then ExecState.Deferred
  else ExecState.NotAttempted

/-! ## Parser instance state (deferExecution) -/

/-- The Parser data members touched by the inline member functions, plus two
unrelated members used to state frame conditions. -/
structure ParserState where
  input_filename : String
  tree_printed : Bool
  deferred_execution : List ParserBlock
  executed_blocks : List String
  deriving DecidableEq

/-- From Parser.h:68-71: `deferExecution(pb_ptr)` is exactly
`_deferred_execution.push_back(pb_ptr)` — an unconditional append to the back
of the deferred list, touching nothing else. -/
def deferExecution (s : ParserState) (pb : ParserBlock) : ParserState :=
  ParserState.mk s.input_filename s.tree_printed (s.deferred_execution ++ [pb])
    s.executed_blocks

end MooseParser

namespace MooseParser

/-! ## Basic lemmas -/

/-- Boolean list containment agrees with membership. -/
theorem contains_true_iff {α : Type} [BEq α] [LawfulBEq α] {l : List α} {a : α} :
    l.contains a = true ↔ a ∈ l := by
  simp [List.contains, List.elem_iff]

/-- On input without delimiter characters, `tokenizeAux` yields the single
accumulated segment (or nothing when the whole segment is empty). -/
theorem tokenizeAux_no_delim (delims : List Char) :
    ∀ (l cur : List Char), (∀ c ∈ l, c ∉ delims) →
      tokenizeAux delims cur l =
        if (cur.reverse ++ l).isEmpty then [] else [cur.reverse ++ l] := by
  intro l
  induction l with
  | nil =>
    intro cur _
    cases cur <;> simp [tokenizeAux]
  | cons c cs ih =>
    intro cur h
    have hc : c ∉ delims := h c (List.mem_cons_self c cs)
    have hrec := ih (c :: cur) (fun d hd => h d (List.mem_cons_of_mem c hd))
    simp [tokenizeAux, hc, hrec, List.isEmpty_iff]

/-- A non-empty string without delimiter characters tokenizes to itself. -/
theorem tokenize_no_delim (str delims : String) (hne : str ≠ "")
    (h : ∀ c ∈ str.toList, c ∉ delims.toList) :
    tokenize str delims = [str] := by
  have hl : str.toList ≠ [] := by
    intro hnil
    apply hne
    cases str with
    | mk data =>
      simp [String.toList] at hnil
      subst hnil
      rfl
  unfold tokenize
  rw [tokenizeAux_no_delim delims.toList str.toList [] h]
  cases str with
  | mk data =>
    simp [String.toList] at hl
    simp [String.toList, List.isEmpty_iff, hl]

/-! ## Scheduler lemmas -/

/-- Marking a block executed preserves the already-executed entries. -/
theorem markExecuted_subset (ex : List String) (p : String) : ex ⊆ markExecuted ex p := by
  unfold markExecuted
  split
  · exact List.Subset.refl ex
  · exact List.subset_append_left ex [p]

/-- The marked block is in the executed set afterwards. -/
theorem mem_markExecuted_self (ex : List String) (p : String) : p ∈ markExecuted ex p := by
  unfold markExecuted
  split
  case isTrue h => exact contains_true_iff.mp h
  case isFalse h => simp

/-- Entries of the executed set after a mark come from before, or are the mark. -/
theorem markExecuted_src (ex : List String) (p q : String) :
    q ∈ markExecuted ex p → q ∈ ex ∨ q = p := by
  unfold markExecuted
  split
  · exact fun h => Or.inl h
  · intro h
    rcases List.mem_append.mp h with h1 | h1
    · exact Or.inl h1
    · exact Or.inr (List.mem_singleton.mp h1)

/-- `markExecuted` is a set insertion: it never introduces a duplicate. -/
theorem markExecuted_nodup (ex : List String) (p : String) (h : ex.Nodup) :
    (markExecuted ex p).Nodup := by
  unfold markExecuted
  split
  case isTrue _ => exact h
  case isFalse hc =>
    have hp : p ∉ ex := fun hmem => hc (contains_true_iff.mpr hmem)
    simp [List.nodup_append, h, hp]

/-- Prerequisite satisfaction is monotone in the executed set. -/
theorem prereqsMet_mono {ex ex' : List String} {b : ParserBlock} (hsub : ex ⊆ ex')
    (h : prereqsMet ex b = true) : prereqsMet ex' b = true := by
  simp only [prereqsMet, isExecuted, List.all_eq_true] at h ⊢
  intro p hp
  exact contains_true_iff.mpr (hsub (contains_true_iff.mp (h p hp)))

/-- A sweep only grows the executed set. -/
theorem sweep_executed_subset (df : List ParserBlock) :
    ∀ ex : List String, ex ⊆ (sweep ex df).1 := by
  induction df with
  | nil => intro ex; simp [sweep]
  | cons b rest ih =>
    intro ex
    unfold sweep
    split
    · exact List.Subset.trans (markExecuted_subset ex b.path) (ih (markExecuted ex b.path))
    · exact ih ex

/-- The deferred list after a sweep is a sublist of the list swept. -/
theorem sweep_deferred_sublist (df : List ParserBlock) :
    ∀ ex : List String, List.Sublist (sweep ex df).2 df := by
  induction df with
  | nil => intro ex; simp [sweep]
  | cons b rest ih =>
    intro ex
    unfold sweep
    split
    · exact List.Sublist.trans (ih (markExecuted ex b.path)) (List.sublist_cons_self b rest)
    · exact List.Sublist.cons₂ b (ih ex)

/-- A block still deferred after a sweep was already in the swept list and had
an unmet prerequisite at the start of the sweep. -/
theorem sweep_deferred_mem (df : List ParserBlock) :
    ∀ (ex : List String) (b : ParserBlock), b ∈ (sweep ex df).2 →
      b ∈ df ∧ prereqsMet ex b = false := by
  induction df with
  | nil => intro ex b h; simp [sweep] at h
  | cons b0 rest ih =>
    intro ex b h
    unfold sweep at h
    split at h
    case isTrue hok =>
      obtain ⟨hmem, hfail⟩ := ih (markExecuted ex b0.path) b h
      refine ⟨List.mem_cons_of_mem b0 hmem, ?_⟩
      cases hfb : prereqsMet ex b with
      | false => rfl
      | true =>
        exact absurd (prereqsMet_mono (markExecuted_subset ex b0.path) hfb) (by simp [hfail])
    case isFalse hko =>
      rcases List.mem_cons.mp h with rfl | hmem
      · exact ⟨List.mem_cons_self b rest, by simpa using hko⟩
      · obtain ⟨hmem2, hfail⟩ := ih ex b hmem
        exact ⟨List.mem_cons_of_mem b0 hmem2, hfail⟩

/-- No block is lost by a sweep: each swept block ends up executed or still
deferred. -/
theorem sweep_cover (df : List ParserBlock) :
    ∀ (ex : List String) (b : ParserBlock), b ∈ df →
      b.path ∈ (sweep ex df).1 ∨ b ∈ (sweep ex df).2 := by
  induction df with
  | nil => intro ex b h; simp at h
  | cons b0 rest ih =>
    intro ex b h
    unfold sweep
    split
    case isTrue hok =>
      rcases List.mem_cons.mp h with rfl | hmem
      · exact Or.inl (sweep_executed_subset rest (markExecuted ex b.path)
          (mem_markExecuted_self ex b.path))
      · exact ih (markExecuted ex b0.path) b hmem
    case isFalse hko =>
      rcases List.mem_cons.mp h with rfl | hmem
      · exact Or.inr (List.mem_cons_self b (sweep ex rest).2)
      · rcases ih ex b hmem with h1 | h1
        · exact Or.inl h1
        · exact Or.inr (List.mem_cons_of_mem b0 h1)

/-- Entries of the executed set after a sweep come from before the sweep or
from the paths of the swept blocks. -/
theorem sweep_exec_src (df : List ParserBlock) :
    ∀ (ex : List String) (q : String), q ∈ (sweep ex df).1 →
      q ∈ ex ∨ q ∈ df.map ParserBlock.path := by
  induction df with
  | nil => intro ex q h; simp [sweep] at h; exact Or.inl h
  | cons b0 rest ih =>
    intro ex q h
    unfold sweep at h
    split at h
    case isTrue hok =>
      rcases ih (markExecuted ex b0.path) q h with h1 | h1
      · rcases markExecuted_src ex b0.path q h1 with h2 | rfl
        · exact Or.inl h2
        · exact Or.inr (by simp)
      · exact Or.inr (List.mem_cons_of_mem b0.path (by simpa using h1))
    case isFalse hko =>
      rcases ih ex q h with h1 | h1
      · exact Or.inl h1
      · exact Or.inr (List.mem_cons_of_mem b0.path (by simpa using h1))

/-- A sweep keeps the executed set duplicate-free. -/
theorem sweep_nodup (df : List ParserBlock) :
    ∀ ex : List String, ex.Nodup → (sweep ex df).1.Nodup := by
  induction df with
  | nil => intro ex h; simpa [sweep] using h
  | cons b0 rest ih =>
    intro ex h
    unfold sweep
    split
    · exact ih (markExecuted ex b0.path) (markExecuted_nodup ex b0.path h)
    · exact ih ex h

/-- A sweep that removes zero entries changes nothing at all. -/
theorem sweep_fixed_of_length (df : List ParserBlock) :
    ∀ ex : List String, (sweep ex df).2.length = df.length → sweep ex df = (ex, df) := by
  induction df with
  | nil => intro ex _; simp [sweep]
  | cons b0 rest ih =>
    intro ex hlen
    unfold sweep at hlen ⊢
    split at hlen
    case isTrue hok =>
      have hsub := sweep_deferred_sublist rest (markExecuted ex b0.path)
      have hle := hsub.length_le
      simp only [List.length_cons] at hlen
      omega
    case isFalse hko =>
      simp only [List.length_cons] at hlen
      have heq := ih ex (by omega)
      simp [hko, heq]

/-- Iterated sweeps only grow the executed set. -/
theorem iterSweeps_exec_subset :
    ∀ (n : Nat) (ex : List String) (df : List ParserBlock), ex ⊆ (iterSweeps n ex df).1 := by
  intro n
  induction n with
  | zero => intro ex df; exact List.Subset.refl ex
  | succ n ih =>
    intro ex df
    exact List.Subset.trans (sweep_executed_subset df ex) (ih (sweep ex df).1 (sweep ex df).2)

/-- Iterated sweeps keep the executed set duplicate-free. -/
theorem iterSweeps_nodup :
    ∀ (n : Nat) (ex : List String) (df : List ParserBlock),
      ex.Nodup → (iterSweeps n ex df).1.Nodup := by
  intro n
  induction n with
  | zero => intro ex df h; exact h
  | succ n ih =>
    intro ex df h
    exact ih (sweep ex df).1 (sweep ex df).2 (sweep_nodup df ex h)

/-- Entries of the executed set after iterated sweeps come from the initial
executed set or from the paths of the initially deferred blocks. -/
theorem iterSweeps_exec_src :
    ∀ (n : Nat) (ex : List String) (df : List ParserBlock) (q : String),
      q ∈ (iterSweeps n ex df).1 → q ∈ ex ∨ q ∈ df.map ParserBlock.path := by
  intro n
  induction n with
  | zero => intro ex df q h; exact Or.inl h
  | succ n ih =>
    intro ex df q h
    rcases ih (sweep ex df).1 (sweep ex df).2 q h with h1 | h1
    · exact sweep_exec_src df ex q h1
    · exact Or.inr (((sweep_deferred_sublist df ex).map ParserBlock.path).subset h1)

/-- No block is lost by iterated sweeps. -/
theorem iterSweeps_cover :
    ∀ (n : Nat) (ex : List String) (df : List ParserBlock) (b : ParserBlock),
      b ∈ df → b.path ∈ (iterSweeps n ex df).1 ∨ b ∈ (iterSweeps n ex df).2 := by
  intro n
  induction n with
  | zero => intro ex df b h; exact Or.inr h
  | succ n ih =>
    intro ex df b h
    rcases sweep_cover df ex b h with h1 | h1
    · exact Or.inl (iterSweeps_exec_subset n (sweep ex df).1 (sweep ex df).2 h1)
    · exact ih (sweep ex df).1 (sweep ex df).2 b h1

/-- Iterating from a fixed point of `sweep` stays there. -/
theorem iterSweeps_fixed :
    ∀ (n : Nat) (ex : List String) (df : List ParserBlock),
      sweep ex df = (ex, df) → iterSweeps n ex df = (ex, df) := by
  intro n
  induction n with
  | zero => intro ex df _; rfl
  | succ n ih =>
    intro ex df h
    have h2 : iterSweeps (n + 1) ex df = iterSweeps n (sweep ex df).1 (sweep ex df).2 := rfl
    rw [h2, h]
    exact ih ex df h

/-- After as many sweeps as there are deferred blocks, the scheduler state is
a fixed point of `sweep`: the retry loop has stopped at the first sweep that
removes zero entries. -/
theorem iterSweeps_reaches_fixed :
    ∀ (n : Nat) (ex : List String) (df : List ParserBlock), df.length ≤ n →
      sweep (iterSweeps n ex df).1 (iterSweeps n ex df).2 = iterSweeps n ex df := by
  intro n
  induction n with
  | zero =>
    intro ex df h
    have hdf : df = [] := List.length_eq_zero.mp (Nat.le_zero.mp h)
    subst hdf
    rfl
  | succ n ih =>
    intro ex df h
    have hstep : iterSweeps (n + 1) ex df = iterSweeps n (sweep ex df).1 (sweep ex df).2 := rfl
    by_cases hfix : (sweep ex df).2.length = df.length
    · have hfp := sweep_fixed_of_length df ex hfix
      have h1 : iterSweeps (n + 1) ex df = (ex, df) := by
        rw [hstep, hfp]
        exact iterSweeps_fixed n ex df hfp
      rw [h1]
      exact hfp
    · have hlt : (sweep ex df).2.length < df.length :=
        Nat.lt_of_le_of_ne (sweep_deferred_sublist df ex).length_le hfix
      rw [hstep]
      exact ih (sweep ex df).1 (sweep ex df).2 (by omega)

/-- Sweep iteration composes additively. -/
theorem iterSweeps_add :
    ∀ (m n : Nat) (ex : List String) (df : List ParserBlock),
      iterSweeps (m + n) ex df
        = iterSweeps n (iterSweeps m ex df).1 (iterSweeps m ex df).2 := by
  intro m
  induction m with
  | zero => intro n ex df; simp [iterSweeps]
  | succ m ih =>
    intro n ex df
    have h1 : m + 1 + n = (m + n) + 1 := by omega
    rw [h1]
    have h2 : iterSweeps ((m + n) + 1) ex df
        = iterSweeps (m + n) (sweep ex df).1 (sweep ex df).2 := rfl
    rw [h2, ih n (sweep ex df).1 (sweep ex df).2]
    rfl

/-- One sweep pushes the minimum rank of the deferred blocks up by one, for a
prerequisite relation that a ranking function shows acyclic: a deferred
block's unmet prerequisite is the path of a block of smaller rank that is
itself still deferred. -/
theorem sweep_rank_step (blocks : List ParserBlock) (rank : String → Nat)
    (Hclosed : ∀ b ∈ blocks, ∀ p ∈ b.prereqs, p ∈ blocks.map ParserBlock.path)
    (Hrank : ∀ b ∈ blocks, ∀ p ∈ b.prereqs, rank p < rank b.path)
    (k : Nat) (ex : List String) (df : List ParserBlock)
    (hsub : ∀ b ∈ df, b ∈ blocks)
    (hcov : ∀ b ∈ blocks, b.path ∈ ex ∨ b ∈ df)
    (hrk : ∀ b ∈ df, k ≤ rank b.path) :
    (∀ b ∈ (sweep ex df).2, b ∈ blocks) ∧
    (∀ b ∈ blocks, b.path ∈ (sweep ex df).1 ∨ b ∈ (sweep ex df).2) ∧
    (∀ b ∈ (sweep ex df).2, k + 1 ≤ rank b.path) := by
  refine ⟨?_, ?_, ?_⟩
  · intro b hb
    exact hsub b (sweep_deferred_mem df ex b hb).1
  · intro b hb
    rcases hcov b hb with h | h
    · exact Or.inl (sweep_executed_subset df ex h)
    · exact sweep_cover df ex b h
  · intro b hb
    obtain ⟨hbdf, hfail⟩ := sweep_deferred_mem df ex b hb
    have hbblocks : b ∈ blocks := hsub b hbdf
    have hex : ∃ p ∈ b.prereqs, ex.contains p = false := by
      by_contra hall
      push_neg at hall
      have hmet : prereqsMet ex b = true := by
        simp only [prereqsMet, isExecuted, List.all_eq_true]
        intro p hp
        have := hall p hp
        simpa using this
      simp [hmet] at hfail
    obtain ⟨p, hp, hpex⟩ := hex
    obtain ⟨b2, hb2, hb2path⟩ := List.mem_map.mp (Hclosed b hbblocks p hp)
    rcases hcov b2 hb2 with h2 | h2
    · rw [hb2path] at h2
      have hcp : ex.contains p = true := contains_true_iff.mpr h2
      rw [hpex] at hcp
      exact Bool.noConfusion hcp
    · have hk2 : k ≤ rank b2.path := hrk b2 h2
      have hlt : rank p < rank b.path := Hrank b hbblocks p hp
      rw [hb2path] at hk2
      omega

/-- After `j` sweeps every still-deferred block has rank at least `j` above
the starting bound, and the coverage invariants are maintained. -/
theorem iterSweeps_rank (blocks : List ParserBlock) (rank : String → Nat)
    (Hclosed : ∀ b ∈ blocks, ∀ p ∈ b.prereqs, p ∈ blocks.map ParserBlock.path)
    (Hrank : ∀ b ∈ blocks, ∀ p ∈ b.prereqs, rank p < rank b.path) :
    ∀ (j k : Nat) (ex : List String) (df : List ParserBlock),
      (∀ b ∈ df, b ∈ blocks) →
      (∀ b ∈ blocks, b.path ∈ ex ∨ b ∈ df) →
      (∀ b ∈ df, k ≤ rank b.path) →
      (∀ b ∈ (iterSweeps j ex df).2, b ∈ blocks) ∧
      (∀ b ∈ blocks, b.path ∈ (iterSweeps j ex df).1 ∨ b ∈ (iterSweeps j ex df).2) ∧
      (∀ b ∈ (iterSweeps j ex df).2, k + j ≤ rank b.path) := by
  intro j
  induction j with
  | zero =>
    intro k ex df h1 h2 h3
    exact ⟨h1, h2, h3⟩
  | succ j ih =>
    intro k ex df h1 h2 h3
    obtain ⟨s1, s2, s3⟩ := sweep_rank_step blocks rank Hclosed Hrank k ex df h1 h2 h3
    obtain ⟨g1, g2, g3⟩ := ih (k + 1) (sweep ex df).1 (sweep ex df).2 s1 s2 s3
    have hstep : iterSweeps (j + 1) ex df = iterSweeps j (sweep ex df).1 (sweep ex df).2 := rfl
    rw [hstep]
    refine ⟨g1, g2, ?_⟩
    intro b hb
    have := g3 b hb
    omega

/-- For an acyclic prerequisite graph whose ranks are all below `d`, `d`
retry sweeps after the initial pass leave the deferred list empty. -/
theorem iterSweeps_acyclic (blocks : List ParserBlock) (rank : String → Nat) (d : Nat)
    (Hclosed : ∀ b ∈ blocks, ∀ p ∈ b.prereqs, p ∈ blocks.map ParserBlock.path)
    (Hrank : ∀ b ∈ blocks, ∀ p ∈ b.prereqs, rank p < rank b.path)
    (Hd : ∀ b ∈ blocks, rank b.path < d) :
    (iterSweeps d (sweep [] blocks).1 (sweep [] blocks).2).2 = [] := by
  have h1 : ∀ b ∈ (sweep [] blocks).2, b ∈ blocks :=
    fun b hb => (sweep_deferred_mem blocks [] b hb).1
  have h2 : ∀ b ∈ blocks, b.path ∈ (sweep [] blocks).1 ∨ b ∈ (sweep [] blocks).2 :=
    fun b hb => sweep_cover blocks [] b hb
  have h3 : ∀ b ∈ (sweep [] blocks).2, 0 ≤ rank b.path := fun b _ => Nat.zero_le _
  obtain ⟨g1, g2, g3⟩ := iterSweeps_rank blocks rank Hclosed Hrank d 0 (sweep [] blocks).1
    (sweep [] blocks).2 h1 h2 h3
  cases hdf : (iterSweeps d (sweep [] blocks).1 (sweep [] blocks).2).2 with
  | nil => rfl
  | cons b rest =>
    have hb : b ∈ (iterSweeps d (sweep [] blocks).1 (sweep [] blocks).2).2 := by
      rw [hdf]
      exact List.mem_cons_self b rest
    have ha := g3 b hb
    have hc := Hd b (g1 b hb)
    omega

/-- The state `execute` stops at is a genuine fixed point of `sweep`. -/
theorem executeFix_fixed_point (blocks : List ParserBlock) :
    sweep (executeFix blocks).1 (executeFix blocks).2 = executeFix blocks := by
  unfold executeFix
  exact iterSweeps_reaches_fixed (sweep [] blocks).2.length (sweep [] blocks).1
    (sweep [] blocks).2 (Nat.le_refl _)

/-- An acyclic prerequisite graph leaves nothing deferred at the fixed point. -/
theorem executeFix_resolved (blocks : List ParserBlock) (rank : String → Nat) (d : Nat)
    (Hclosed : ∀ b ∈ blocks, ∀ p ∈ b.prereqs, p ∈ blocks.map ParserBlock.path)
    (Hrank : ∀ b ∈ blocks, ∀ p ∈ b.prereqs, rank p < rank b.path)
    (Hd : ∀ b ∈ blocks, rank b.path < d) :
    (executeFix blocks).2 = [] := by
  have hacy := iterSweeps_acyclic blocks rank d Hclosed Hrank Hd
  rcases Nat.le_total d (sweep [] blocks).2.length with hdL | hLd
  · have hsplit : d + ((sweep [] blocks).2.length - d) = (sweep [] blocks).2.length := by omega
    have hadd := iterSweeps_add d ((sweep [] blocks).2.length - d) (sweep [] blocks).1
      (sweep [] blocks).2
    rw [hsplit] at hadd
    have hfix2 : sweep (iterSweeps d (sweep [] blocks).1 (sweep [] blocks).2).1
        (iterSweeps d (sweep [] blocks).1 (sweep [] blocks).2).2
        = ((iterSweeps d (sweep [] blocks).1 (sweep [] blocks).2).1,
           (iterSweeps d (sweep [] blocks).1 (sweep [] blocks).2).2) := by
      rw [hacy]
      rfl
    have hrest := iterSweeps_fixed ((sweep [] blocks).2.length - d)
      (iterSweeps d (sweep [] blocks).1 (sweep [] blocks).2).1
      (iterSweeps d (sweep [] blocks).1 (sweep [] blocks).2).2 hfix2
    unfold executeFix
    rw [hadd, hrest]
    exact hacy
  · have hsplit : (sweep [] blocks).2.length + (d - (sweep [] blocks).2.length) = d := by omega
    have hadd := iterSweeps_add (sweep [] blocks).2.length (d - (sweep [] blocks).2.length)
      (sweep [] blocks).1 (sweep [] blocks).2
    rw [hsplit] at hadd
    have hfp := executeFix_fixed_point blocks
    unfold executeFix at hfp
    have hfix2 : sweep (iterSweeps (sweep [] blocks).2.length (sweep [] blocks).1
          (sweep [] blocks).2).1
        (iterSweeps (sweep [] blocks).2.length (sweep [] blocks).1 (sweep [] blocks).2).2
        = ((iterSweeps (sweep [] blocks).2.length (sweep [] blocks).1 (sweep [] blocks).2).1,
           (iterSweeps (sweep [] blocks).2.length (sweep [] blocks).1 (sweep [] blocks).2).2) := by
      rw [hfp]
    have hrest := iterSweeps_fixed (d - (sweep [] blocks).2.length)
      (iterSweeps (sweep [] blocks).2.length (sweep [] blocks).1 (sweep [] blocks).2).1
      (iterSweeps (sweep [] blocks).2.length (sweep [] blocks).1 (sweep [] blocks).2).2 hfix2
    rw [hrest] at hadd
    unfold executeFix
    rw [hadd] at hacy
    exact hacy

/-- When nothing is deferred at the fixed point, `execute` succeeds with the
executed set. -/
theorem execute_ok_of_resolved (blocks : List ParserBlock)
    (h : (executeFix blocks).2 = []) :
    execute blocks = Except.ok (executeFix blocks).1 := by
  unfold execute
  rw [h]
  rfl

/-- A block's execution state only advances across a sweep. -/
theorem blockState_mono (ex : List String) (df : List ParserBlock) (b : ParserBlock) :
    stateIdx (blockState ex df b) ≤ stateIdx (blockState (sweep ex df).1 (sweep ex df).2 b) := by
  unfold blockState
  by_cases h1 : b.path ∈ ex
  · have h2 : b.path ∈ (sweep ex df).1 := sweep_executed_subset df ex h1
    simp [h1, h2]
  · by_cases h3 : b ∈ df
    · rcases sweep_cover df ex b h3 with h4 | h4
      · simp [h1, h3, h4, stateIdx]
      · by_cases h6 : b.path ∈ (sweep ex df).1
        · simp [h1, h3, h4, h6, stateIdx]
        · simp [h1, h3, h4, h6, stateIdx]
    · simp [h1, h3, stateIdx]

/-- The `Executed` state is terminal across sweeps. -/
theorem blockState_executed_terminal (ex : List String) (df : List ParserBlock)
    (b : ParserBlock) (h : blockState ex df b = ExecState.Executed) :
    blockState (sweep ex df).1 (sweep ex df).2 b = ExecState.Executed := by
  unfold blockState at h ⊢
  by_cases h1 : b.path ∈ ex
  · simp [sweep_executed_subset df ex h1]
  · rw [if_neg h1] at h
    split at h <;> simp_all

/-- A successful `execute` returns a duplicate-free executed set holding
exactly the constructed block paths, of size the number of distinct paths. -/
theorem execute_ok_characterization (blocks : List ParserBlock) (ex : List String)
    (h : execute blocks = Except.ok ex) :
    ex.Nodup ∧ (∀ p, p ∈ ex ↔ p ∈ blocks.map ParserBlock.path) ∧
    ex.length = (blocks.map ParserBlock.path).dedup.length := by
  unfold execute at h
  by_cases hemp : (executeFix blocks).2.isEmpty = true
  case neg => simp [hemp] at h
  case pos =>
    rw [if_pos hemp] at h
    have hex : ex = (executeFix blocks).1 := (Except.ok.inj h).symm
    have hdf : (executeFix blocks).2 = [] := List.isEmpty_iff.mp hemp
    subst hex
    have hnodup : (executeFix blocks).1.Nodup := by
      unfold executeFix
      exact iterSweeps_nodup (sweep [] blocks).2.length (sweep [] blocks).1
        (sweep [] blocks).2 (sweep_nodup blocks [] List.nodup_nil)
    have hmem : ∀ p, p ∈ (executeFix blocks).1 ↔ p ∈ blocks.map ParserBlock.path := by
      intro p
      constructor
      · intro hp
        unfold executeFix at hp
        rcases iterSweeps_exec_src (sweep [] blocks).2.length (sweep [] blocks).1
          (sweep [] blocks).2 p hp with h1 | h1
        · rcases sweep_exec_src blocks [] p h1 with h2 | h2
          · simp at h2
          · exact h2
        · exact ((sweep_deferred_sublist blocks []).map ParserBlock.path).subset h1
      · intro hp
        obtain ⟨b, hb, hbp⟩ := List.mem_map.mp hp
        subst hbp
        rcases sweep_cover blocks [] b hb with h1 | h1
        · unfold executeFix
          exact iterSweeps_exec_subset (sweep [] blocks).2.length (sweep [] blocks).1
            (sweep [] blocks).2 h1
        · rcases iterSweeps_cover (sweep [] blocks).2.length (sweep [] blocks).1
            (sweep [] blocks).2 b h1 with h2 | h2
          · exact h2
          · rw [show iterSweeps (sweep [] blocks).2.length (sweep [] blocks).1
                (sweep [] blocks).2 = executeFix blocks from rfl, hdf] at h2
            simp at h2
    refine ⟨hnodup, hmem, ?_⟩
    have hperm : (executeFix blocks).1.Perm (blocks.map ParserBlock.path).dedup := by
      refine (List.perm_ext_iff_of_nodup hnodup (List.nodup_dedup _)).mpr ?_
      intro p
      rw [List.mem_dedup]
      exact hmem p
    exact hperm.length_eq

/-! ## Claim theorems -/

/-- C1: the execution scheduler always terminates — the retry loop stops at
the first sweep that removes zero entries (the state it stops in is a fixed
point of `sweep`); for an acyclic prerequisite graph, witnessed by a ranking
function with all ranks below `d`, all blocks are resolved within at most `d`
retry sweeps after the initial pass and `execute` succeeds; and for the
cyclic graph of two blocks each requiring the other's object, `execute`
terminates with `UnresolvedDependency` reporting both remaining block
paths. -/
theorem execute_terminates_C1 :
    (∀ blocks : List ParserBlock,
        sweep (executeFix blocks).1 (executeFix blocks).2 = executeFix blocks) ∧
    (∀ (blocks : List ParserBlock) (rank : String → Nat) (d : Nat),
        (∀ b ∈ blocks, ∀ p ∈ b.prereqs, p ∈ blocks.map ParserBlock.path) →
        (∀ b ∈ blocks, ∀ p ∈ b.prereqs, rank p < rank b.path) →
        (∀ b ∈ blocks, rank b.path < d) →
        (iterSweeps d (sweep [] blocks).1 (sweep [] blocks).2).2 = [] ∧
        execute blocks = Except.ok (executeFix blocks).1) ∧
    execute [ParserBlock.mk "A" ["B"], ParserBlock.mk "B" ["A"]]
      = Except.error (ParseError.UnresolvedDependency ["A", "B"]) := by
  refine ⟨executeFix_fixed_point, ?_, by rfl⟩
  intro blocks rank d Hclosed Hrank Hd
  exact ⟨iterSweeps_acyclic blocks rank d Hclosed Hrank Hd,
    execute_ok_of_resolved blocks (executeFix_resolved blocks rank d Hclosed Hrank Hd)⟩

/-- C1 witness: a two-block acyclic graph of depth 2 — block `A`, declared
first, requires the object of the later block `B` — resolves within 2 retry
sweeps and `execute` succeeds. -/
theorem execute_terminates_C1_witness :
    (iterSweeps 2 (sweep [] [ParserBlock.mk "A" ["B"], ParserBlock.mk "B" []]).1
        (sweep [] [ParserBlock.mk "A" ["B"], ParserBlock.mk "B" []]).2).2 = [] ∧
    execute [ParserBlock.mk "A" ["B"], ParserBlock.mk "B" []]
      = Except.ok (executeFix [ParserBlock.mk "A" ["B"], ParserBlock.mk "B" []]).1 :=
  execute_terminates_C1.2.1 [ParserBlock.mk "A" ["B"], ParserBlock.mk "B" []]
    (fun p => if p = "B" then 0 else 1) 2 (by decide) (by decide) (by decide)

/-- C2: a block's execution state only advances (`NotAttempted` below
`Deferred` below `Executed`) across a sweep and never regresses; `Executed`
is terminal; the executed set never acquires a duplicate, so no block is
executed twice; and a successful `execute` returns an executed set that is
duplicate-free, holds exactly the constructed blocks' paths, and whose size
equals the number of distinct constructed block paths. -/
theorem execution_state_C2 :
    (∀ (ex : List String) (df : List ParserBlock) (b : ParserBlock),
        stateIdx (blockState ex df b)
          ≤ stateIdx (blockState (sweep ex df).1 (sweep ex df).2 b)) ∧
    (∀ (ex : List String) (df : List ParserBlock) (b : ParserBlock),
        blockState ex df b = ExecState.Executed →
        blockState (sweep ex df).1 (sweep ex df).2 b = ExecState.Executed) ∧
    (∀ (ex : List String) (df : List ParserBlock),
        ex.Nodup → (sweep ex df).1.Nodup) ∧
    (∀ (blocks : List ParserBlock) (ex : List String),
        execute blocks = Except.ok ex →
        ex.Nodup ∧ (∀ p, p ∈ ex ↔ p ∈ blocks.map ParserBlock.path) ∧
        ex.length = (blocks.map ParserBlock.path).dedup.length) := by
  exact ⟨blockState_mono, blockState_executed_terminal,
    fun ex df h => sweep_nodup df ex h, execute_ok_characterization⟩

/-- C2 witness: on the session executing `B` then `A`, the executed set
`["B", "A"]` is duplicate-free, holds exactly the two block paths, and has
the size of the distinct-path count. -/
theorem execution_state_C2_witness :
    (["B", "A"] : List String).Nodup ∧
    (∀ p, p ∈ (["B", "A"] : List String) ↔
      p ∈ ([ParserBlock.mk "B" [], ParserBlock.mk "A" ["B"]].map ParserBlock.path)) ∧
    (["B", "A"] : List String).length
      = ([ParserBlock.mk "B" [], ParserBlock.mk "A" ["B"]].map ParserBlock.path).dedup.length :=
  execution_state_C2.2.2.2 [ParserBlock.mk "B" [], ParserBlock.mk "A" ["B"]] ["B", "A"] (by rfl)

/-- C3: parameter extraction looks a name up on the target block first and
falls back to the global-parameters block only when it is absent there, so a
block-local value always takes precedence; a block lacking `dt` while the
global block defines `dt = "0.1"` yields the extracted scalar `0.1` (the
rational `1/10`), and a local `dt = "0.2"` overrides the global `"0.1"`. -/
theorem extract_precedence_C3 :
    (∀ (blk glob : RawParams) (n v : String),
        blk.lookup n = some v → lookupRaw blk glob n = some v) ∧
    (∀ (blk glob : RawParams) (n : String),
        blk.lookup n = none → lookupRaw blk glob n = glob.lookup n) ∧
    setScalarParameter parseDecimal "Real" "Executioner" "dt" false
        [("scheme", "implicit-euler")] [("dt", "0.1")] none
      = Except.ok (some (mkRat 1 10)) ∧
    setScalarParameter parseDecimal "Real" "Executioner" "dt" false
        [("dt", "0.2")] [("dt", "0.1")] none
      = Except.ok (some (mkRat 2 10)) := by
  refine ⟨?_, ?_, by rfl, by rfl⟩
  · intro blk glob n v h
    simp [lookupRaw, h]
  · intro blk glob n h
    simp [lookupRaw, h]

/-- C3 witness: with `dt` present both locally and globally, the lookup
returns the block-local raw value. -/
theorem extract_precedence_C3_witness :
    lookupRaw [("dt", "0.2")] [("dt", "0.1")] "dt" = some "0.2" :=
  extract_precedence_C3.1 [("dt", "0.2")] [("dt", "0.1")] "dt" "0.2" (by rfl)

/-- C4: when a parameter is absent after both the block-local and the global
lookup, a required parameter fails with `MissingRequiredParameter` carrying
the block path and parameter name, and an optional parameter is a silent
no-op: the existing value is returned untouched, whatever it is. -/
theorem extract_missing_C4 :
    ∀ {T : Type} (parseT : String → Option T) (type_name block_path n : String)
      (blk glob : RawParams) (current : Option T),
      lookupRaw blk glob n = none →
      setScalarParameter parseT type_name block_path n true blk glob current
          = Except.error (ExtractError.MissingRequiredParameter block_path n) ∧
      setScalarParameter parseT type_name block_path n false blk glob current
          = Except.ok current := by
  intro T parseT tn bp n blk glob current h
  constructor <;> simp [setScalarParameter, h]

/-- C4 witness: `dim` is absent from the `Mesh` block and from the (empty)
global block; required extraction fails with `MissingRequiredParameter "Mesh"
"dim"`, optional extraction leaves the unset value unchanged. -/
theorem extract_missing_C4_witness :
    setScalarParameter parseDecimal "Real" "Mesh" "dim" true [("file", "sq.e")] [] none
        = Except.error (ExtractError.MissingRequiredParameter "Mesh" "dim") ∧
    setScalarParameter parseDecimal "Real" "Mesh" "dim" false [("file", "sq.e")] [] none
        = Except.ok none :=
  extract_missing_C4 parseDecimal "Real" "Mesh" "dim" [("file", "sq.e")] [] none (by rfl)

/-- C5: if any token of a parameter's raw value fails to parse as the declared
element type, the whole conversion fails with `TypeConversionError` naming the
parameter, the expected type, and the first offending token, and returns no
value at all (so nothing is partially assigned); in particular the token
`"abc"` requested as a numeric scalar yields
`TypeConversionError "value" "Real" "abc"` and `parseDecimal "abc" = none`. -/
theorem extract_conversion_C5 :
    (∀ {T : Type} (parseT : String → Option T) (tn n : String) (toks : List String),
        (∃ t ∈ toks, parseT t = none) →
        ∃ pre t post, toks = pre ++ t :: post ∧ (∀ u ∈ pre, (parseT u).isSome) ∧
          parseT t = none ∧
          convertTokens parseT n tn toks
            = Except.error (ExtractError.TypeConversionError n tn t)) ∧
    setScalarParameter parseDecimal "Real" "BCs/left" "value" true
        [("value", "abc")] [] none
      = Except.error (ExtractError.TypeConversionError "value" "Real" "abc") ∧
    parseDecimal "abc" = none := by
  refine ⟨?_, by rfl, by rfl⟩
  intro T parseT tn n toks
  induction toks with
  | nil =>
    intro h
    simp at h
  | cons t ts ih =>
    intro h
    cases hp : parseT t with
    | none =>
      refine ⟨[], t, ts, by simp, by simp, hp, ?_⟩
      simp [convertTokens, hp]
    | some v =>
      have hex : ∃ u ∈ ts, parseT u = none := by
        obtain ⟨u, hu, hun⟩ := h
        rcases List.mem_cons.mp hu with rfl | hmem
        · rw [hp] at hun
          exact Option.noConfusion hun
        · exact ⟨u, hmem, hun⟩
      obtain ⟨pre, t2, post, heq, hpre, ht2, hconv⟩ := ih hex
      refine ⟨t :: pre, t2, post, by simp [heq], ?_, ht2, ?_⟩
      · intro u hu
        rcases List.mem_cons.mp hu with rfl | hmem
        · simp [hp]
        · exact hpre u hmem
      · simp [convertTokens, hp, hconv]

/-- C5 witness: in the token list `["0", "abc", "2"]` the malformed token
`"abc"` fails the whole numeric conversion with `TypeConversionError`. -/
theorem extract_conversion_C5_witness :
    ∃ pre t post, (["0", "abc", "2"] : List String) = pre ++ t :: post ∧
      (∀ u ∈ pre, (parseDecimal u).isSome) ∧ parseDecimal t = none ∧
      convertTokens parseDecimal "v" "Real" ["0", "abc", "2"]
        = Except.error (ExtractError.TypeConversionError "v" "Real" t) :=
  extract_conversion_C5.1 parseDecimal "Real" "v" ["0", "abc", "2"]
    ⟨"abc", by simp, by rfl⟩

/-- C6: `isSectionActive` implements the default-active policy — a section
whose parent path has no entry in the active-lists mapping is active, and a
section whose parent path has an entry is active iff its own name appears in
that active list. -/
theorem isSectionActive_C6 :
    (∀ (name : String) (m : List (String × List String)),
        (m.lookup (parentPath name) = none → isSectionActive name m = true) ∧
        (∀ lst, m.lookup (parentPath name) = some lst →
          (isSectionActive name m = true ↔ baseName name ∈ lst))) ∧
    isSectionActive "Foo/bar" [("Foo", ["bar"])] = true ∧
    isSectionActive "Foo/baz" [("Foo", ["bar"])] = false ∧
    isSectionActive "Foo/baz" [] = true := by
  refine ⟨?_, by rfl, by rfl, by rfl⟩
  intro name m
  constructor
  · intro h
    unfold isSectionActive
    rw [h]
  · intro lst h
    unfold isSectionActive
    rw [h]
    exact contains_true_iff

/-- C6 witness: `Outputs/console` against the mapping entry
`("Outputs", ["exodus"])` is active iff `console` is in the active list. -/
theorem isSectionActive_C6_witness :
    isSectionActive "Outputs/console" [("Outputs", ["exodus"])] = true ↔
      baseName "Outputs/console" ∈ ["exodus"] :=
  (isSectionActive_C6.1 "Outputs/console" [("Outputs", ["exodus"])]).2 ["exodus"] (by rfl)

/-- C7 counterexample: the empty string contains no delimiter character, yet
`tokenize` returns the empty sequence, not the single-element sequence
holding the input — the universally quantified part of the claim fails at the
empty input. -/
theorem tokenize_C7_cex :
    (∀ c ∈ "".toList, c ∉ "/".toList) ∧ tokenize "" "/" ≠ [""] := by
  constructor
  · intro c hc
    simp [String.toList] at hc
  · decide

/-- C7 (amended): `tokenize` splits on every delimiter occurrence and
discards empty segments — `tokenize "a/b/c" "/" = ["a","b","c"]` and
`tokenize "a//b" "/" = ["a","b"]` — and every non-empty input containing no
delimiter character tokenizes to the single-element sequence holding that
input. -/
theorem tokenize_splits_C7 :
    tokenize "a/b/c" "/" = ["a", "b", "c"] ∧
    tokenize "a//b" "/" = ["a", "b"] ∧
    ∀ (str delims : String), str ≠ "" →
      (∀ c ∈ str.toList, c ∉ delims.toList) →
      tokenize str delims = [str] := by
  exact ⟨by decide, by decide, fun str delims hne h => tokenize_no_delim str delims hne h⟩

/-- C7 witness: the delimiter-free non-empty input `"abc"` tokenizes to
itself. -/
theorem tokenize_splits_C7_witness : tokenize "abc" "/" = ["abc"] :=
  tokenize_splits_C7.2.2 "abc" "/" (by decide) (by decide)

/-- C8: `pathContains` returns true exactly when the string to find equals
one of the tokenized segments of the expression; in particular
`pathContains "a/b/c" "b" = true` and `pathContains "a/b/c" "d" = false`. -/
theorem pathContains_C8 :
    (∀ (expression string_to_find delims : String),
        pathContains expression string_to_find delims = true ↔
          string_to_find ∈ tokenize expression delims) ∧
    pathContains "a/b/c" "b" "/" = true ∧
    pathContains "a/b/c" "d" "/" = false := by
  refine ⟨?_, by decide, by decide⟩
  intro e s d
  simp [pathContains]

/-- C9: every `deferExecution` call appends the block to the back of the
deferred list, so any sequence of calls leaves the deferred list holding the
blocks in exactly the order they were deferred. -/
theorem deferExecution_order_C9 :
    (∀ (s : ParserState) (pb : ParserBlock),
        (deferExecution s pb).deferred_execution = s.deferred_execution ++ [pb]) ∧
    (∀ (s : ParserState) (pbs : List ParserBlock),
        (pbs.foldl deferExecution s).deferred_execution = s.deferred_execution ++ pbs) := by
  refine ⟨fun s pb => rfl, ?_⟩
  intro s pbs
  induction pbs generalizing s with
  | nil => simp
  | cons pb rest ih =>
    simp [List.foldl_cons, ih, deferExecution]

/-- C10: `deferExecution` performs no duplicate or executed-state check: the
append is unconditional (the block's multiplicity in the deferred list always
rises by one, so a block already present is appended again), and no other
Parser state changes — in particular the executed set is untouched. -/
theorem deferExecution_frame_C10 :
    ∀ (s : ParserState) (pb : ParserBlock),
      (deferExecution s pb).deferred_execution = s.deferred_execution ++ [pb] ∧
      (deferExecution s pb).deferred_execution.count pb
        = s.deferred_execution.count pb + 1 ∧
      (deferExecution s pb).executed_blocks = s.executed_blocks ∧
      (deferExecution s pb).input_filename = s.input_filename ∧
      (deferExecution s pb).tree_printed = s.tree_printed := by
  intro s pb
  refine ⟨rfl, ?_, rfl, rfl, rfl⟩
  simp [deferExecution, List.count_append]

end MooseParser
